import Mathlib

/-!
Shallow embedding of the Text-Interpolator repository (src/lib.rs and
src/defaults.rs) over `List Char`, together with theorems settling the
frozen claims about it.

Modelling conventions:
* Rust `&str` values are modelled as `List Char`.
* Rust byte-level slicing is modelled through `Char.utf8Size`: the slice
  `&s[s.len() - 1 ..]` used by `extract_template` is in bounds exactly when
  the final character of `s` occupies one UTF-8 byte; otherwise the Rust
  program panics, which the model renders as `none`.
* `char::is_alphanumeric` is modelled by the ASCII alphanumeric predicate
  (the two agree on every ASCII scalar; no claim in this development
  depends on a non-ASCII alphanumeric character).
* `char::is_whitespace` is modelled by the full Unicode White_Space set.
* The mutable field `times_recursed` of `TextInterpolator` is passed as an
  explicit `Nat` state, and every return path also reports the field value
  left behind, so guard-reset behaviour is visible in the result type.
* Recursion in `interp` is made total with a fuel parameter: `outOfFuel`
  at every fuel value models a run of the Rust program that never returns.
-/

set_option maxRecDepth 8000

/-- The template marker character of the default convention: an apostrophe,
code point 39. -/
def apost : Char := Char.ofNat 39

/-- Character list of a string literal, used to write concrete inputs. -/
def chars (s : String) : List Char := s.data

/-- Models Rust `char::is_alphanumeric` (restricted to the ASCII range, on
which it coincides with the Unicode predicate used by the source). -/
def isAlphanumeric (c : Char) : Bool := c.isAlphanum

/-- Models Rust `char::is_whitespace`: the Unicode White_Space property. -/
def isRustWhitespace (c : Char) : Bool :=
  let n := c.toNat
  decide ((9 ≤ n ∧ n ≤ 13) ∨ n = 32 ∨ n = 0x85 ∨ n = 0xA0 ∨ n = 0x1680 ∨
    (0x2000 ≤ n ∧ n ≤ 0x200A) ∨ n = 0x2028 ∨ n = 0x2029 ∨ n = 0x202F ∨
    n = 0x205F ∨ n = 0x3000)

/-- Models Rust `str::split_once(sep)` with a character delimiter: splits at
the first occurrence of `sep`, the delimiter excluded from both parts;
`none` when `sep` does not occur. -/
def splitOnceChar (sep : Char) : List Char → Option (List Char × List Char)
  | [] => none
  | c :: cs =>
    if c = sep then some ([], cs)
    else
      match splitOnceChar sep cs with
      | some p => some (c :: p.1, p.2)
      | none => none

/-- Models Rust `str::split_once(pred)` with a character-predicate pattern:
splits at the first character satisfying `p`, that character excluded from
both parts; `none` when no character satisfies `p`. -/
def splitOncePred (p : Char → Bool) : List Char → Option (List Char × List Char)
  | [] => none
  | c :: cs =>
    if p c then some ([], cs)
    else
      match splitOncePred p cs with
      | some q => some (c :: q.1, q.2)
      | none => none

/-- Models the `TemplateSplit` struct of src/lib.rs. The field `pre` models
the struct field holding the text before the marker (named `prefix` in the
source); `template` and `suffix` keep their source names. -/
structure TemplateSplit where
  pre : List Char
  template : List Char
  suffix : List Char
  deriving DecidableEq, Repr

/-- Models `extract_template` of src/defaults.rs (the identical copy in
src/lib.rs is the one installed by `TextInterpolator::new`). The result is
`none` exactly when the Rust function panics: in the branch where the
non-alphanumeric terminator is the final character, the source evaluates
`&split.1[split.1.len() - 1..]`, a byte-indexed slice that is out of
char-boundary whenever that final character occupies more than one UTF-8
byte. -/
def extract_template (tok : List Char) : Option TemplateSplit :=
  match splitOnceChar apost tok with
  | some s =>
    match splitOncePred (fun ch => !(isAlphanumeric ch)) s.2 with
    | some inner =>
      if inner.2 = [] then
        match s.2.getLast? with
        | some c => if c.utf8Size = 1 then some ⟨s.1, inner.1, [c]⟩ else none
        | none => none
      else some ⟨s.1, inner.1, inner.2⟩
    | none => some ⟨s.1, s.2, []⟩
  | none => some ⟨[], [], []⟩

/-- Models `is_template` of src/defaults.rs: true exactly when the first
character of the token is the marker. -/
def is_template (tok : List Char) : Bool :=
  match tok with
  | [] => false
  | c :: _ => c = apost

/-- Accumulator worker for `splitWhitespace`; `acc` holds the characters of
the current in-progress token in reverse order. -/
def splitWhitespaceAux : List Char → List Char → List (List Char)
  | [], acc => if acc = [] then [] else [acc.reverse]
  | c :: cs, acc =>
    if isRustWhitespace c then
      if acc = [] then splitWhitespaceAux cs []
      else acc.reverse :: splitWhitespaceAux cs []
    else splitWhitespaceAux cs (c :: acc)

/-- Models Rust `str::split_whitespace`: the maximal whitespace-free
nonempty chunks of the input, in order. -/
def splitWhitespace (s : List Char) : List (List Char) :=
  splitWhitespaceAux s []

/-- Models `TextInterpolator::contains_template` with the default
classifier installed by `TextInterpolator::new`. -/
def contains_template (text : List Char) : Bool :=
  (splitWhitespace text).any is_template

/-- Models the leading-whitespace half of Rust `str::trim`. -/
def trimLeft (l : List Char) : List Char := l.dropWhile isRustWhitespace

/-- Models the trailing-whitespace half of Rust `str::trim`. -/
def trimRight (l : List Char) : List Char :=
  (l.reverse.dropWhile isRustWhitespace).reverse

/-- Models Rust `str::trim`: whitespace removed from both ends. -/
def rustTrim (l : List Char) : List Char := trimRight (trimLeft l)

/-- Models the constant `RECURSION_LIMIT` of src/lib.rs. -/
def RECURSION_LIMIT : Nat := 25

/-- Outcome of a run of `interp`. `ok` and `limitErr` carry the value left
in the `times_recursed` field on that return path; `panicked` models a Rust
panic (reachable through `extract_template`); `outOfFuel` reports that the
modelled execution did not finish within the given fuel. -/
inductive RunResult where
  | ok (out : List Char) (ctr : Nat)
  | limitErr (ctr : Nat)
  | panicked
  | outOfFuel
  deriving DecidableEq, Repr

/-- A resolver: the caller-supplied map from template name to optional
replacement, `map: &impl Fn(&str) -> Option<String>` in the source. -/
abbrev Resolver := (List Char → Option (List Char))

/-- Models the `while self.contains_template(&substitution)` loop inside
`interp`: each iteration increments the counter and re-enters `interp`
(here abstracted as `stepInterp`, the engine at the enclosing fuel), and
the loop continues on the value and counter the inner call returned. Its
own fuel argument bounds the number of iterations modelled. -/
def whileGo (stepInterp : Nat → List Char → RunResult) :
    Nat → Nat → List Char → RunResult
  | 0, ctr, sub => if contains_template sub then .outOfFuel else .ok sub ctr
  | w + 1, ctr, sub =>
    if contains_template sub then
      match stepInterp (ctr + 1) sub with
      | .ok s ctr2 => whileGo stepInterp w ctr2 s
      | r => r
    else .ok sub ctr

/-- Models the `for item in text.split_whitespace()` loop of `interp`:
`ctr` is the current `times_recursed` value, `acc` the output string built
so far (each emitted token followed by one space, as in the source), and
the base case models `self.times_recursed = 0; Ok(output.trim()...)`. A
token resolving through `map` first meets the `times_recursed >=
RECURSION_LIMIT` check, which models `self.times_recursed = 0; return
Err(RecursionLimitReachedError)` by `.limitErr 0`. -/
def tokensGo (stepInterp : Nat → List Char → RunResult) (map : Resolver)
    (w : Nat) : Nat → List (List Char) → List Char → RunResult
  | _, [], acc => .ok (rustTrim acc) 0
  | ctr, tok :: rest, acc =>
    match extract_template tok with
    | none => .panicked
    | some ts =>
      match map ts.template with
      | some substitute =>
        if RECURSION_LIMIT ≤ ctr then .limitErr 0
        else
          match whileGo stepInterp w ctr substitute with
          | .ok sub ctr2 =>
              tokensGo stepInterp map w ctr2 rest
                (acc ++ ts.pre ++ sub ++ ts.suffix ++ [' '])
          | r => r
      | none => tokensGo stepInterp map w ctr rest (acc ++ tok ++ [' '])

/-- Models `TextInterpolator::interp` with the default classifier, as a
function of fuel, the `times_recursed` field value at entry, and the input
text. One unit of fuel is spent per nested `interp` entry, and the while
loops at this level may model at most `f` iterations; `outOfFuel` at every
fuel value therefore means the Rust call never returns. -/
def interp (map : Resolver) : Nat → Nat → List Char → RunResult
  | 0, _, _ => .outOfFuel
  | f + 1, ctr, text => tokensGo (interp map f) map f ctr (splitWhitespace text) []

/-- Output string as the source's loop assembles it before the final trim:
every token followed by a single space. -/
def joinTrailing : List (List Char) → List Char
  | [] => []
  | t :: rest => t ++ ' ' :: joinTrailing rest

/-- Tokens joined by single spaces with no trailing separator. -/
def sepSpace : List (List Char) → List Char
  | [] => []
  | [t] => t
  | t :: rest => t ++ ' ' :: sepSpace rest

/-- Whitespace normalization: runs of whitespace collapse to single spaces
and leading/trailing whitespace disappears. -/
def normalizeWs (text : List Char) : List Char :=
  sepSpace (splitWhitespace text)

/-- Value of the `times_recursed` field after a run, read off the result;
the non-returning outcomes carry no field value and report 0. -/
def finalCtr : RunResult → Nat
  | .ok _ c => c
  | .limitErr c => c
  | _ => 0

/-- Resolver sending `a` and `b` to the replacement text consisting of the
marker followed by `u`, and every other name (in particular `u`) to
`none`. -/
def mapLoop : Resolver := fun t =>
  if t = chars "a" then some (apost :: chars "u")
  else if t = chars "b" then some (apost :: chars "u")
  else none

/-- Resolver of the self-reference test: `infinite` resolves to the marker
followed by `infinite`, everything else to `none`. -/
def mapInfinite : Resolver := fun t =>
  if t = chars "infinite" then some (apost :: chars "infinite") else none

/-- Resolver defined on the empty template name and nowhere else. -/
def mapEmptyName : Resolver := fun t =>
  if t = ([] : List Char) then some (chars "bye") else none

/-! Characterizations of the two `split_once` models. -/

theorem splitOnceChar_none {sep : Char} {l : List Char} (h : sep ∉ l) :
    splitOnceChar sep l = none := by
  induction l with
  | nil => rfl
  | cons c cs ih =>
    rw [List.mem_cons, not_or] at h
    simp only [splitOnceChar]
    rw [if_neg (fun e => h.1 e.symm), ih h.2]

theorem splitOnceChar_some {sep : Char} :
    ∀ {l a b : List Char}, splitOnceChar sep l = some (a, b) →
      l = a ++ sep :: b ∧ sep ∉ a := by
  intro l
  induction l with
  | nil => intro a b h; exact absurd h (by simp [splitOnceChar])
  | cons c cs ih =>
    intro a b h
    simp only [splitOnceChar] at h
    by_cases hc : c = sep
    · rw [if_pos hc] at h
      simp only [Option.some.injEq, Prod.mk.injEq] at h
      obtain ⟨ha, hb⟩ := h
      subst ha; subst hb; subst hc
      simp
    · rw [if_neg hc] at h
      rcases hrec : splitOnceChar sep cs with _ | p
      · rw [hrec] at h; exact absurd h (by simp)
      · rw [hrec] at h
        simp only [Option.some.injEq, Prod.mk.injEq] at h
        obtain ⟨ha, hb⟩ := h
        obtain ⟨hl, hn⟩ := ih hrec
        subst ha; subst hb
        refine ⟨by rw [hl]; simp, ?_⟩
        rw [List.mem_cons, not_or]
        exact ⟨fun e => hc e.symm, hn⟩

theorem splitOnceChar_of {sep : Char} :
    ∀ {a : List Char} (b : List Char), sep ∉ a →
      splitOnceChar sep (a ++ sep :: b) = some (a, b) := by
  intro a
  induction a with
  | nil => intro b _; simp [splitOnceChar]
  | cons c cs ih =>
    intro b h
    rw [List.mem_cons, not_or] at h
    simp only [List.cons_append, splitOnceChar, List.append_eq]
    rw [if_neg (fun e => h.1 e.symm), ih b h.2]

theorem splitOncePred_some {p : Char → Bool} :
    ∀ {l a b : List Char}, splitOncePred p l = some (a, b) →
      ∃ c, p c = true ∧ l = a ++ c :: b ∧ ∀ x ∈ a, p x = false := by
  intro l
  induction l with
  | nil => intro a b h; exact absurd h (by simp [splitOncePred])
  | cons c cs ih =>
    intro a b h
    simp only [splitOncePred] at h
    by_cases hc : p c = true
    · rw [if_pos hc] at h
      simp only [Option.some.injEq, Prod.mk.injEq] at h
      obtain ⟨ha, hb⟩ := h
      subst ha; subst hb
      exact ⟨c, hc, rfl, by simp⟩
    · rw [if_neg hc] at h
      rcases hrec : splitOncePred p cs with _ | q
      · rw [hrec] at h; exact absurd h (by simp)
      · rw [hrec] at h
        simp only [Option.some.injEq, Prod.mk.injEq] at h
        obtain ⟨ha, hb⟩ := h
        obtain ⟨d, hd, hl, hall⟩ := ih hrec
        subst ha; subst hb
        refine ⟨d, hd, by rw [hl]; simp, ?_⟩
        intro x hx
        rcases List.mem_cons.1 hx with rfl | hx2
        · exact Bool.not_eq_true _ ▸ Bool.eq_false_iff.2 (fun e => hc e)
        · exact hall x hx2

theorem splitOncePred_of {p : Char → Bool} {c : Char} :
    ∀ {a : List Char} (b : List Char), (∀ x ∈ a, p x = false) → p c = true →
      splitOncePred p (a ++ c :: b) = some (a, b) := by
  intro a
  induction a with
  | nil => intro b _ hc; simp [splitOncePred, hc]
  | cons d ds ih =>
    intro b h hc
    simp only [List.cons_append, splitOncePred, List.append_eq]
    rw [if_neg (by simp [h d (by simp)]), ih b (fun x hx => h x (by simp [hx])) hc]

/-! Facts about `extract_template` and `is_template`. -/

theorem extract_no_marker {tok : List Char} (h : apost ∉ tok) :
    extract_template tok = some ⟨[], [], []⟩ := by
  simp only [extract_template, splitOnceChar_none h]

theorem is_template_of_no_marker {tok : List Char} (h : apost ∉ tok) :
    is_template tok = false := by
  cases tok with
  | nil => rfl
  | cons c cs =>
    rw [List.mem_cons, not_or] at h
    simp only [is_template]
    exact decide_eq_false (fun e => h.1 e.symm)

/-- C2 (corrected): when `extract_template` yields a non-empty template,
concatenating `pre`, the marker, `template` and `suffix` reconstructs the
original token exactly when no non-alphanumeric character terminated the
run mid-token; when such a terminator exists and text follows it, that one
character is dropped, so the concatenation equals the token with the
terminator removed. For every token with no marker, all three fields are
empty. -/
theorem C2_split_reconstruction :
    (∀ tok : List Char, apost ∉ tok → extract_template tok = some ⟨[], [], []⟩) ∧
    (∀ (tok : List Char) (ts : TemplateSplit), extract_template tok = some ts →
      ts.template ≠ [] →
      tok = ts.pre ++ apost :: (ts.template ++ ts.suffix) ∨
      ∃ c, isAlphanumeric c = false ∧ ts.suffix ≠ [] ∧
        tok = ts.pre ++ apost :: (ts.template ++ c :: ts.suffix)) := by
  constructor
  · exact fun tok h => extract_no_marker h
  · intro tok ts h hne
    simp only [extract_template] at h
    rcases h1 : splitOnceChar apost tok with _ | s
    · simp only [h1, Option.some.injEq] at h
      rw [← h] at hne
      simp at hne
    · simp only [h1] at h
      obtain ⟨htok, -⟩ := splitOnceChar_some h1
      rcases h2 : splitOncePred (fun ch => !(isAlphanumeric ch)) s.2 with _ | inner
      · simp only [h2, Option.some.injEq] at h
        subst h
        left
        simpa using htok
      · simp only [h2] at h
        obtain ⟨c, hpc, hs2, -⟩ := splitOncePred_some h2
        by_cases hi : inner.2 = []
        · rw [if_pos hi] at h
          rw [hi] at hs2
          simp only [hs2, List.getLast?_concat] at h
          by_cases hu : c.utf8Size = 1
          · rw [if_pos hu] at h
            simp only [Option.some.injEq] at h
            subst h
            left
            rw [htok, hs2]
          · rw [if_neg hu] at h
            exact absurd h (by simp)
        · rw [if_neg hi] at h
          simp only [Option.some.injEq] at h
          subst h
          right
          refine ⟨c, by simpa using hpc, hi, ?_⟩
          rw [htok, hs2]

/-- C2 counterexample: on the token made of marker, `noun`, marker, `s`
(the source test input written `"'noun's"`), the concatenation of prefix,
marker, template and suffix differs from the token — the second marker is
dropped. -/
theorem C2_counterexample :
    extract_template (apost :: (chars "noun" ++ apost :: chars "s")) =
      some ⟨[], chars "noun", chars "s"⟩ ∧
    ¬ (apost :: (chars "noun" ++ apost :: chars "s")) =
      ([] : List Char) ++ apost :: (chars "noun" ++ chars "s") := by
  decide

/-- C2 witness: the amended reconstruction statement applied to the token
written `"'noun."` in the source tests. -/
theorem C2_witness :
    (apost :: chars "noun.") =
      TemplateSplit.pre ⟨[], chars "noun", chars "."⟩ ++
        apost :: (TemplateSplit.template ⟨[], chars "noun", chars "."⟩ ++
          TemplateSplit.suffix ⟨[], chars "noun", chars "."⟩) ∨
    ∃ c, isAlphanumeric c = false ∧
      TemplateSplit.suffix ⟨[], chars "noun", chars "."⟩ ≠ [] ∧
      (apost :: chars "noun.") =
        TemplateSplit.pre ⟨[], chars "noun", chars "."⟩ ++
          apost :: (TemplateSplit.template ⟨[], chars "noun", chars "."⟩ ++
            c :: TemplateSplit.suffix ⟨[], chars "noun", chars "."⟩) :=
  C2_split_reconstruction.2 (apost :: chars "noun.") ⟨[], chars "noun", chars "."⟩
    (by decide) (by decide)

/-- C4: on a token whose maximal alphanumeric run after the marker is
terminated by a multi-byte non-alphanumeric character in final position
(here U+2026), the source's byte-indexed slice `&split.1[split.1.len() -
1..]` does not fall on a character boundary and the Rust program panics;
the model reports `none`, and `interp` propagates the panic. -/
theorem C4_boundary_panic :
    extract_template [apost, 'a', Char.ofNat 0x2026] = none ∧
    interp (fun _ => none) 1 0 [apost, 'a', Char.ofNat 0x2026] = .panicked := by
  decide

/-- C7 (corrected): when the character terminating the alphanumeric run is
itself another marker, the suffix is the remainder after that second
marker with the marker itself dropped — except when the second marker is
the final character, in which case the suffix is exactly the marker. The
suffix is therefore not the marker-led remainder verbatim. -/
theorem C7_nested_marker_suffix :
    ∀ (pre t rest : List Char), apost ∉ pre → (∀ c ∈ t, isAlphanumeric c = true) →
      extract_template (pre ++ apost :: (t ++ apost :: rest)) =
        some ⟨pre, t, if rest = [] then [apost] else rest⟩ := by
  intro pre t rest hp ht
  have h1 : splitOnceChar apost (pre ++ apost :: (t ++ apost :: rest)) =
      some (pre, t ++ apost :: rest) := splitOnceChar_of _ hp
  have h2 : splitOncePred (fun ch => !(isAlphanumeric ch)) (t ++ apost :: rest) =
      some (t, rest) :=
    splitOncePred_of rest (fun x hx => by simp [ht x hx]) (by decide)
  simp only [extract_template, h1, h2]
  by_cases hr : rest = []
  · subst hr
    rw [if_pos rfl]
    simp only [show (t ++ apost :: ([] : List Char)).getLast? = some apost from
      List.getLast?_concat _]
    rw [if_pos (show apost.utf8Size = 1 by decide)]
    simp
  · rw [if_neg hr, if_neg hr]

/-- C7 counterexample: on the token written `"'noun'noun"` in the source
tests, the suffix is `noun`, not the marker-led remainder. -/
theorem C7_counterexample :
    extract_template (apost :: (chars "noun" ++ apost :: chars "noun")) =
      some ⟨[], chars "noun", chars "noun"⟩ ∧
    chars "noun" ≠ apost :: chars "noun" := by
  decide

/-- C7 witness: the amended statement applied to the token written
`"'noun'noun"` in the source tests. -/
theorem C7_witness :
    extract_template (([] : List Char) ++ apost :: (chars "noun" ++ apost :: chars "noun")) =
      some ⟨[], chars "noun", if chars "noun" = ([] : List Char) then [apost] else chars "noun"⟩ :=
  C7_nested_marker_suffix [] (chars "noun") (chars "noun") (by decide) (by decide)

/-- C9: a token containing no marker splits into all-empty fields and is
not a template; `is_template` is true exactly when the first character is
the marker; the empty token is not a template. -/
theorem C9_classifier :
    (∀ tok : List Char, apost ∉ tok →
      extract_template tok = some ⟨[], [], []⟩ ∧ is_template tok = false) ∧
    (∀ tok : List Char, is_template tok = true ↔ tok.head? = some apost) ∧
    is_template [] = false := by
  refine ⟨fun tok h => ⟨extract_no_marker h, is_template_of_no_marker h⟩, ?_, rfl⟩
  intro tok
  cases tok with
  | nil => simp [is_template]
  | cons c cs => simp [is_template]

/-- C9 witness: the classifier facts applied to the marker-free token
`xy`. -/
theorem C9_witness :
    extract_template (chars "xy") = some ⟨[], [], []⟩ ∧
    is_template (chars "xy") = false :=
  C9_classifier.1 (chars "xy") (by decide)

/-- C10: the worked example of the spec — splitting the token written
`"['adj.'..'.]"` yields prefix `[`, template `adj` and suffix
`'..'.]`. -/
theorem C10_example_split :
    extract_template (chars "[" ++ apost :: chars "adj." ++ apost :: chars ".." ++
        apost :: chars ".]") =
      some ⟨chars "[", chars "adj", apost :: chars ".." ++ apost :: chars ".]"⟩ := by
  decide

/-! Facts about `splitWhitespace`: its tokens are nonempty, free of
whitespace, and drawn from the input. -/

theorem splitWhitespaceAux_ne_nil (s : List Char) :
    ∀ (acc tok : List Char), tok ∈ splitWhitespaceAux s acc → tok ≠ [] := by
  induction s with
  | nil =>
    intro acc tok h
    simp only [splitWhitespaceAux] at h
    split at h
    · simp at h
    · rename_i hacc
      rw [List.mem_singleton] at h
      subst h
      simpa using hacc
  | cons c cs ih =>
    intro acc tok h
    simp only [splitWhitespaceAux] at h
    split at h
    · split at h
      · exact ih [] tok h
      · rename_i hacc
        rcases List.mem_cons.1 h with rfl | h2
        · simpa using hacc
        · exact ih [] tok h2
    · exact ih (c :: acc) tok h

theorem splitWhitespaceAux_no_ws (s : List Char) :
    ∀ (acc : List Char), (∀ x ∈ acc, isRustWhitespace x = false) →
      ∀ tok ∈ splitWhitespaceAux s acc, ∀ x ∈ tok, isRustWhitespace x = false := by
  induction s with
  | nil =>
    intro acc hacc tok h x hx
    simp only [splitWhitespaceAux] at h
    split at h
    · simp at h
    · rw [List.mem_singleton] at h
      subst h
      exact hacc x (List.mem_reverse.1 hx)
  | cons c cs ih =>
    intro acc hacc tok h x hx
    simp only [splitWhitespaceAux] at h
    split at h
    · split at h
      · exact ih [] (by simp) tok h x hx
      · rcases List.mem_cons.1 h with rfl | h2
        · exact hacc x (List.mem_reverse.1 hx)
        · exact ih [] (by simp) tok h2 x hx
    · rename_i hws
      refine ih (c :: acc) ?_ tok h x hx
      intro y hy
      rcases List.mem_cons.1 hy with rfl | hy2
      · simpa using hws
      · exact hacc y hy2

theorem splitWhitespaceAux_subset (s : List Char) :
    ∀ (acc tok : List Char), tok ∈ splitWhitespaceAux s acc →
      ∀ x ∈ tok, x ∈ s ∨ x ∈ acc := by
  induction s with
  | nil =>
    intro acc tok h x hx
    simp only [splitWhitespaceAux] at h
    split at h
    · simp at h
    · rw [List.mem_singleton] at h
      subst h
      exact Or.inr (List.mem_reverse.1 hx)
  | cons c cs ih =>
    intro acc tok h x hx
    simp only [splitWhitespaceAux] at h
    split at h
    · split at h
      · rcases ih [] tok h x hx with h3 | h3
        · exact Or.inl (List.mem_cons_of_mem _ h3)
        · simp at h3
      · rcases List.mem_cons.1 h with rfl | h2
        · exact Or.inr (List.mem_reverse.1 hx)
        · rcases ih [] tok h2 x hx with h3 | h3
          · exact Or.inl (List.mem_cons_of_mem _ h3)
          · simp at h3
    · rcases ih (c :: acc) tok h x hx with h3 | h3
      · exact Or.inl (List.mem_cons_of_mem _ h3)
      · rcases List.mem_cons.1 h3 with rfl | h4
        · exact Or.inl (List.mem_cons_self _ _)
        · exact Or.inr h4

theorem splitWhitespace_ne_nil {s tok : List Char} (h : tok ∈ splitWhitespace s) :
    tok ≠ [] :=
  splitWhitespaceAux_ne_nil s [] tok h

theorem splitWhitespace_no_ws {s tok : List Char} (h : tok ∈ splitWhitespace s) :
    ∀ x ∈ tok, isRustWhitespace x = false :=
  splitWhitespaceAux_no_ws s [] (by simp) tok h

theorem splitWhitespace_subset {s tok : List Char} (h : tok ∈ splitWhitespace s) :
    ∀ x ∈ tok, x ∈ s :=
  fun x hx => (splitWhitespaceAux_subset s [] tok h x hx).resolve_right (by simp)

/-! Facts about trimming and joining. -/

theorem dropWhile_eq_self_of {p : Char → Bool} :
    ∀ (l : List Char), (∀ x ∈ l, p x = false) → l.dropWhile p = l := by
  intro l
  induction l with
  | nil => intro _; rfl
  | cons c cs _ =>
    intro h
    simp [List.dropWhile_cons, h c (List.mem_cons_self c cs)]

theorem dropWhile_append_of_ne {p : Char → Bool} :
    ∀ (a b : List Char), a.dropWhile p ≠ [] →
      (a ++ b).dropWhile p = a.dropWhile p ++ b := by
  intro a
  induction a with
  | nil => intro b h; exact absurd rfl h
  | cons c cs ih =>
    intro b h
    by_cases hc : p c = true
    · rw [List.cons_append]
      simp only [List.dropWhile_cons, hc, if_true] at h ⊢
      exact ih b h
    · have hc2 : p c = false := by simpa using hc
      simp [List.dropWhile_cons, hc2]

theorem trimRight_append_space (l : List Char) : trimRight (l ++ [' ']) = trimRight l := by
  simp [trimRight, List.reverse_append, List.dropWhile_cons,
    show isRustWhitespace ' ' = true from by decide]

theorem trimRight_no_ws (l : List Char) (h : ∀ x ∈ l, isRustWhitespace x = false) :
    trimRight l = l := by
  rw [trimRight, dropWhile_eq_self_of _ (fun x hx => h x (List.mem_reverse.1 hx)),
    List.reverse_reverse]

theorem trimRight_append_of_ne (a b : List Char) (h : trimRight b ≠ []) :
    trimRight (a ++ b) = a ++ trimRight b := by
  have hb : b.reverse.dropWhile isRustWhitespace ≠ [] := by
    intro e
    apply h
    rw [trimRight, e]
    rfl
  simp only [trimRight, List.reverse_append]
  rw [dropWhile_append_of_ne _ _ hb]
  simp

theorem sepSpace_ne_nil {t : List Char} (ht : t ≠ []) (rest : List (List Char)) :
    sepSpace (t :: rest) ≠ [] := by
  cases rest with
  | nil => simpa [sepSpace] using ht
  | cons t2 r2 => simp [sepSpace]

theorem trimRight_joinTrailing :
    ∀ (toks : List (List Char)), (∀ t ∈ toks, t ≠ []) →
      (∀ t ∈ toks, ∀ x ∈ t, isRustWhitespace x = false) →
      trimRight (joinTrailing toks) = sepSpace toks := by
  intro toks
  induction toks with
  | nil => intro _ _; rfl
  | cons t rest ih =>
    intro h1 h2
    cases rest with
    | nil =>
      show trimRight (t ++ ' ' :: ([] : List Char)) = sepSpace [t]
      rw [show t ++ ' ' :: ([] : List Char) = t ++ [' '] from rfl]
      rw [trimRight_append_space, trimRight_no_ws t (h2 t (by simp))]
      rfl
    | cons t2 rest2 =>
      show trimRight (t ++ ' ' :: joinTrailing (t2 :: rest2)) = sepSpace (t :: t2 :: rest2)
      have h1r : ∀ u ∈ t2 :: rest2, u ≠ [] := fun u hu => h1 u (by simp [hu])
      have h2r : ∀ u ∈ t2 :: rest2, ∀ x ∈ u, isRustWhitespace x = false :=
        fun u hu => h2 u (by simp [hu])
      have hne : trimRight (joinTrailing (t2 :: rest2)) ≠ [] := by
        rw [ih h1r h2r]
        exact sepSpace_ne_nil (h1 t2 (by simp)) rest2
      rw [show t ++ ' ' :: joinTrailing (t2 :: rest2) =
        (t ++ [' ']) ++ joinTrailing (t2 :: rest2) from by simp]
      rw [trimRight_append_of_ne _ _ hne, ih h1r h2r]
      simp [sepSpace]

theorem rustTrim_joinTrailing (toks : List (List Char))
    (h1 : ∀ t ∈ toks, t ≠ []) (h2 : ∀ t ∈ toks, ∀ x ∈ t, isRustWhitespace x = false) :
    rustTrim (joinTrailing toks) = sepSpace toks := by
  have hl : trimLeft (joinTrailing toks) = joinTrailing toks := by
    cases toks with
    | nil => rfl
    | cons t rest =>
      cases t with
      | nil => exact absurd rfl (h1 [] (by simp))
      | cons c t2 =>
        have hc : isRustWhitespace c = false := h2 (c :: t2) (by simp) c (by simp)
        show trimLeft ((c :: t2) ++ ' ' :: joinTrailing rest) = _
        simp [trimLeft, List.dropWhile_cons, hc, joinTrailing]
  rw [rustTrim, hl]
  exact trimRight_joinTrailing toks h1 h2

/-! The token loop on tokens the resolver does not substitute. -/

theorem tokensGo_allNone (stepInterp : Nat → List Char → RunResult) (map : Resolver)
    (w : Nat) :
    ∀ (toks : List (List Char)) (ctr : Nat) (acc : List Char),
      (∀ tok ∈ toks, ∃ ts : TemplateSplit,
        extract_template tok = some ts ∧ map ts.template = none) →
      tokensGo stepInterp map w ctr toks acc = .ok (rustTrim (acc ++ joinTrailing toks)) 0 := by
  intro toks
  induction toks with
  | nil => intro ctr acc _; simp [tokensGo, joinTrailing]
  | cons tok rest ih =>
    intro ctr acc h
    obtain ⟨ts, hext, hmap⟩ := h tok (by simp)
    simp only [tokensGo, hext, hmap]
    rw [ih ctr (acc ++ tok ++ [' ']) (fun u hu => h u (by simp [hu]))]
    simp [joinTrailing, List.append_assoc]

theorem interp_no_marker (map : Resolver) (f ctr : Nat) (text : List Char)
    (hmap : map [] = none) (htext : apost ∉ text) :
    interp map (f + 1) ctr text = .ok (normalizeWs text) 0 := by
  have hAll : ∀ tok ∈ splitWhitespace text, ∃ ts : TemplateSplit,
      extract_template tok = some ts ∧ map ts.template = none := by
    intro tok htok
    exact ⟨⟨[], [], []⟩,
      extract_no_marker (fun hmem => htext (splitWhitespace_subset htok apost hmem)), hmap⟩
  show tokensGo (interp map f) map f ctr (splitWhitespace text) [] = _
  rw [tokensGo_allNone _ _ _ _ _ _ hAll, List.nil_append,
    rustTrim_joinTrailing _ (fun t ht => splitWhitespace_ne_nil ht)
      (fun t ht => splitWhitespace_no_ws ht)]
  rfl

/-- C3 (corrected): a token whose resolved template name maps to `none` is
emitted verbatim and processing continues (no error); a token with empty
template field is likewise emitted verbatim provided the resolver maps the
empty name to `none` (the engine passes the empty template name to the
resolver). Consequently, for every resolver mapping the empty name to
`none`, interpolating marker-free text returns it unchanged modulo
whitespace normalization, with the guard left at 0. -/
theorem C3_passthrough :
    (∀ (stepInterp : Nat → List Char → RunResult) (map : Resolver) (w ctr : Nat)
        (tok : List Char) (rest : List (List Char)) (acc : List Char) (ts : TemplateSplit),
        extract_template tok = some ts →
        (map ts.template = none ∨ (ts.template = [] ∧ map [] = none)) →
        tokensGo stepInterp map w ctr (tok :: rest) acc =
          tokensGo stepInterp map w ctr rest (acc ++ tok ++ [' '])) ∧
    (∀ (map : Resolver) (f ctr : Nat) (text : List Char), map [] = none →
        apost ∉ text → interp map (f + 1) ctr text = .ok (normalizeWs text) 0) := by
  constructor
  · intro stepInterp map w ctr tok rest acc ts hext hnone
    have hmap : map ts.template = none := by
      rcases hnone with h | ⟨h1, h2⟩
      · exact h
      · rw [h1]
        exact h2
    simp only [tokensGo, hext, hmap]
  · exact fun map f ctr text hm ht => interp_no_marker map f ctr text hm ht

/-- C3 counterexample: a resolver defined at the empty template name makes
`interp` replace the marker-free token `hello` by `bye`, so the claim's
unconditional pass-through of empty-template tokens fails as stated. -/
theorem C3_counterexample :
    interp mapEmptyName 1 0 (chars "hello") = .ok (chars "bye") 0 ∧
    chars "bye" ≠ chars "hello" := by
  decide

/-- C3 witness: the amended pass-through applied to the everywhere-`none`
resolver and a marker-free two-token text. -/
theorem C3_witness :
    interp (fun _ => none) (0 + 1) 0 (chars "a  b") =
      .ok (normalizeWs (chars "a  b")) 0 :=
  C3_passthrough.2 (fun _ => none) 0 0 (chars "a  b") rfl (by decide)

/-! Guard-reset facts: every return path of `interp` leaves the
`times_recursed` field at 0. -/

theorem whileGo_limitErr {stepInterp : Nat → List Char → RunResult}
    (H : ∀ (c : Nat) (t : List Char) (c2 : Nat), stepInterp c t = .limitErr c2 → c2 = 0) :
    ∀ (w ctr : Nat) (sub : List Char) (c2 : Nat),
      whileGo stepInterp w ctr sub = .limitErr c2 → c2 = 0 := by
  intro w
  induction w with
  | zero =>
    intro ctr sub c2 h
    simp only [whileGo] at h
    split at h
    · simp at h
    · simp at h
  | succ w ih =>
    intro ctr sub c2 h
    simp only [whileGo] at h
    split at h
    · rcases hstep : stepInterp (ctr + 1) sub with ⟨s, c3⟩ | ⟨c3⟩ | _ | _
      · simp only [hstep] at h
        exact ih c3 s c2 h
      · simp only [hstep] at h
        simp only [RunResult.limitErr.injEq] at h
        subst h
        exact H _ _ _ hstep
      · simp only [hstep] at h
        exact RunResult.noConfusion h
      · simp only [hstep] at h
        exact RunResult.noConfusion h
    · simp at h

theorem tokensGo_finalCtr {stepInterp : Nat → List Char → RunResult} {map : Resolver}
    {w : Nat}
    (H : ∀ (c : Nat) (t : List Char) (c2 : Nat), stepInterp c t = .limitErr c2 → c2 = 0) :
    ∀ (toks : List (List Char)) (ctr : Nat) (acc : List Char),
      finalCtr (tokensGo stepInterp map w ctr toks acc) = 0 := by
  intro toks
  induction toks with
  | nil => intro ctr acc; rfl
  | cons tok rest ih =>
    intro ctr acc
    rcases hext : extract_template tok with _ | ts
    · simp only [tokensGo, hext]
      rfl
    · simp only [tokensGo, hext]
      rcases hmap : map ts.template with _ | sub
      · simp only [hmap]
        exact ih ctr (acc ++ tok ++ [' '])
      · simp only [hmap]
        by_cases h25 : RECURSION_LIMIT ≤ ctr
        · rw [if_pos h25]
          rfl
        · rw [if_neg h25]
          rcases hw : whileGo stepInterp w ctr sub with ⟨s, c3⟩ | ⟨c3⟩ | _ | _
          · simp only [hw]
            exact ih c3 _
          · simp only [hw]
            exact whileGo_limitErr H w ctr sub c3 hw
          · simp only [hw]
            rfl
          · simp only [hw]
            rfl

theorem interp_finalCtr (map : Resolver) :
    ∀ (f ctr : Nat) (text : List Char), finalCtr (interp map f ctr text) = 0 := by
  intro f
  induction f with
  | zero => intro ctr text; rfl
  | succ f ih =>
    intro ctr text
    have H : ∀ (c : Nat) (t : List Char) (c2 : Nat),
        interp map f c t = .limitErr c2 → c2 = 0 := by
      intro c t c2 h
      have h0 := ih c t
      rw [h] at h0
      exact h0
    show finalCtr (tokensGo (interp map f) map f ctr (splitWhitespace text) []) = 0
    exact tokensGo_finalCtr H (splitWhitespace text) ctr []

/-- C8: every run of `interp` that returns — `ok` or the recursion-limit
error — leaves the `times_recursed` field at its initial value 0, so a
subsequent call on the same instance computes exactly what the same call
computes on a freshly constructed instance (whose field is 0). -/
theorem C8_guard_reset :
    ∀ (map : Resolver) (f ctr : Nat) (text : List Char),
      finalCtr (interp map f ctr text) = 0 ∧
      (∀ (map2 : Resolver) (f2 : Nat) (t2 : List Char),
        interp map2 f2 (finalCtr (interp map f ctr text)) t2 = interp map2 f2 0 t2) := by
  intro map f ctr text
  refine ⟨interp_finalCtr map f ctr text, ?_⟩
  intro map2 f2 t2
  rw [interp_finalCtr map f ctr text]

/-! Divergence of the engine on a replacement that contains an unresolved
template: the inner `interp` call returns the replacement unchanged and
resets the counter, so the while loop never makes progress. -/

theorem interp_unresolved_u :
    ∀ (f ctr : Nat),
      interp mapLoop (f + 1) ctr (apost :: chars "u") = .ok (apost :: chars "u") 0 := by
  intro f ctr
  have hAll : ∀ tok ∈ splitWhitespace (apost :: chars "u"), ∃ ts : TemplateSplit,
      extract_template tok = some ts ∧ mapLoop ts.template = none := by
    intro tok htok
    rw [show splitWhitespace (apost :: chars "u") = [apost :: chars "u"] from by decide,
      List.mem_singleton] at htok
    subst htok
    exact ⟨⟨[], chars "u", []⟩, by decide, by decide⟩
  show tokensGo (interp mapLoop f) mapLoop f ctr (splitWhitespace (apost :: chars "u")) [] = _
  rw [tokensGo_allNone _ _ _ _ _ _ hAll]
  decide

theorem whileGo_unresolved_u :
    ∀ (w f ctr : Nat),
      whileGo (interp mapLoop f) w ctr (apost :: chars "u") = .outOfFuel := by
  intro w
  induction w with
  | zero =>
    intro f ctr
    simp only [whileGo]
    rw [if_pos (show contains_template (apost :: chars "u") = true from by decide)]
  | succ w ih =>
    intro f ctr
    simp only [whileGo]
    rw [if_pos (show contains_template (apost :: chars "u") = true from by decide)]
    cases f with
    | zero =>
      simp only [show interp mapLoop 0 (ctr + 1) (apost :: chars "u") = .outOfFuel from rfl]
    | succ f2 =>
      simp only [interp_unresolved_u f2 (ctr + 1)]
      exact ih (f2 + 1) 0

/-- C1: `interp` does not terminate on every input: with the resolver
sending `a` to the replacement marker-`u` and leaving `u` unresolved, the
top-level call on the single-token text marker-`a` runs out of any amount
of fuel — the modelled Rust execution loops forever, because each
completed inner call resets the recursion counter, so the while loop over
the unresolved replacement never reaches the limit and never exits. -/
theorem C1_interp_diverges :
    ∀ f : Nat, interp mapLoop f 0 (apost :: chars "a") = .outOfFuel := by
  intro f
  cases f with
  | zero => rfl
  | succ g =>
    show tokensGo (interp mapLoop g) mapLoop g 0 (splitWhitespace (apost :: chars "a")) [] = _
    rw [show splitWhitespace (apost :: chars "a") = [apost :: chars "a"] from by decide]
    simp only [tokensGo,
      show extract_template (apost :: chars "a") = some ⟨[], chars "a", []⟩ from by decide,
      show mapLoop (chars "a") = some (apost :: chars "u") from by decide]
    rw [if_neg (show ¬ (RECURSION_LIMIT ≤ 0) from by decide)]
    simp only [whileGo_unresolved_u g g 0]

/-- C5: the counter staying below the ceiling does not make `interp` return
`Ok`: with the resolver sending `b` to the replacement marker-`u` and
leaving `u` unresolved, the counter never exceeds 1 — every completed
inner call resets it to 0 — yet the call never returns at any fuel. The
recursion-limit error is therefore not raised exactly at the ceiling as
claimed; below the ceiling the engine can also fail to return at all. -/
theorem C5_below_limit_no_ok :
    ∀ f : Nat, interp mapLoop f 0 (apost :: chars "b") = .outOfFuel := by
  intro f
  cases f with
  | zero => rfl
  | succ g =>
    show tokensGo (interp mapLoop g) mapLoop g 0 (splitWhitespace (apost :: chars "b")) [] = _
    rw [show splitWhitespace (apost :: chars "b") = [apost :: chars "b"] from by decide]
    simp only [tokensGo,
      show extract_template (apost :: chars "b") = some ⟨[], chars "b", []⟩ from by decide,
      show mapLoop (chars "b") = some (apost :: chars "u") from by decide]
    rw [if_neg (show ¬ (RECURSION_LIMIT ≤ 0) from by decide)]
    simp only [whileGo_unresolved_u g g 0]

/-! Self-reference: the chain of nested calls raises the counter by one per
descent until the ceiling check fires. -/

theorem interp_infinite_aux :
    ∀ (f c : Nat), c ≤ 25 → 27 ≤ f + c →
      interp mapInfinite f c (apost :: chars "infinite") = .limitErr 0 := by
  intro f
  induction f with
  | zero =>
    intro c hc h
    exact absurd h (by omega)
  | succ g ih =>
    intro c hc h
    show tokensGo (interp mapInfinite g) mapInfinite g c
      (splitWhitespace (apost :: chars "infinite")) [] = _
    rw [show splitWhitespace (apost :: chars "infinite") = [apost :: chars "infinite"]
      from by decide]
    simp only [tokensGo,
      show extract_template (apost :: chars "infinite") =
        some ⟨[], chars "infinite", []⟩ from by decide,
      show mapInfinite (chars "infinite") = some (apost :: chars "infinite") from by decide]
    by_cases h25 : RECURSION_LIMIT ≤ c
    · rw [if_pos h25]
    · rw [if_neg h25]
      have h25n : ¬ (25 ≤ c) := h25
      cases g with
      | zero => exact absurd h (by omega)
      | succ g2 =>
        simp only [whileGo]
        rw [if_pos (show contains_template (apost :: chars "infinite") = true from by decide)]
        simp only [ih (c + 1) (by omega) (by omega)]

/-- C6: on the self-referential resolver sending `infinite` to the
replacement marker-`infinite`, the top-level call on the single-token text
marker-`infinite` returns the recursion-limit error (with the guard reset
to 0) at every sufficient fuel — it neither hangs nor overflows: the
nested descent raises the counter to the ceiling, where the check fires
and the error propagates to the caller. -/
theorem C6_self_reference_error :
    ∀ f : Nat, 27 ≤ f → interp mapInfinite f 0 (apost :: chars "infinite") = .limitErr 0 :=
  fun f h => interp_infinite_aux f 0 (by omega) (by omega)

/-- C6 witness: the recursion-limit outcome at the concrete fuel 27. -/
theorem C6_witness :
    27 ≤ 27 ∧ interp mapInfinite 27 0 (apost :: chars "infinite") = .limitErr 0 :=
  ⟨by decide, C6_self_reference_error 27 (by decide)⟩
